import Mathlib

/-!
Verification of the audio silence remover (src/audio_pause.py).

The program loads an audio buffer (pydub `AudioSegment`), detects non-silent
intervals, shows a preview table of the long pauses, and on request rebuilds
the audio from the padded non-silent intervals with 60 ms crossfades and a
final loudness normalization.

Shallow embedding choices:
* An `AudioBuffer` is a list of samples, one per millisecond — pydub's public
  interface slices, measures and appends `AudioSegment`s in milliseconds, and
  every quantity in the program (interval endpoints, `keep_start`, `keep_end`,
  the crossfade constant) is a millisecond count.
* Interval endpoints and padding amounts are integers (`ℤ`), matching Python
  ints; `min_silence_len` and the derived per-pause times are rationals (`ℚ`),
  replacing Python floats (every float the pause-derivation loop manipulates
  is an integer divided by 1000, which is exact in ℚ as it is in binary
  floating point for the magnitudes involved).
* The two pieces of per-sample numeric processing whose exact values are
  floating-point DSP (the dB fade curves multiplied inside a crossfade, and
  the gain applied by `normalize`) are abstracted as function parameters
  `mix` and `gain`: no claim depends on blended or normalized sample
  values, only on lengths, positions and verbatim-copied regions.
* `pydub.AudioSegment.append(seg, crossfade)` raises `ValueError` when the
  crossfade is longer than either operand; fallible code is embedded in
  `Option`, with `none` for the raised exception.
-/

set_option maxRecDepth 10000

namespace AudioPause

/-- A sample; one entry of the buffer per millisecond. -/
abbrev Sample := ℤ

/-- An `AudioBuffer` embeds a pydub `AudioSegment`; `len(audio)` is
its length in milliseconds, i.e. `List.length`. -/
abbrev AudioBuffer := List Sample

/-- Slicing `audio[start:end]` — pydub millisecond slicing (with both bounds
already inside `[0, len audio]`, which is the only way the program
slices). -/
def extract (audio : AudioBuffer) (r : ℤ × ℤ) : AudioBuffer :=
  (audio.drop r.1.toNat).take (r.2 - r.1).toNat

/-- The padding step of `process_audio` (src/audio_pause.py lines 37–41):
    for (start, end) in nonsilent_ranges:
        start = max(0, start - keep_start)
        end = min(len(audio), end + keep_end)
        adjusted_ranges.append((start, end))
`L` is `len(audio)`. -/
def adjustRanges (L keep_start keep_end : ℤ) (nonsilent_ranges : List (ℤ × ℤ)) :
    List (ℤ × ℤ) :=
  nonsilent_ranges.map (fun r => (max 0 (r.1 - keep_start), min L (r.2 + keep_end)))

/-- The constant `crossfade_dur = 60  # smooth transition between segments
(ms)` (src/audio_pause.py line 44). -/
def crossfade_dur : ℕ := 60

/-- The headroom argument of the final `output_audio.normalize(headroom=1.0)`
(src/audio_pause.py line 58). -/
def headroom : ℚ := 1

/-- The library call `pydub.AudioSegment.append(seg, crossfade)`: with
`crossfade = 0` the two
are concatenated; a crossfade longer than either operand raises `ValueError`
(`none`); otherwise the trailing `crossfade` ms of `seg1` and the leading
`crossfade` ms of `seg2` are blended sample-by-sample (`mix` abstracts the
faded multiply) between the untouched `seg1[:-crossfade]` and
`seg2[crossfade:]`. -/
def appendCrossfade (mix : Sample → Sample → Sample) (seg1 seg2 : AudioBuffer)
    (crossfade : ℕ) : Option AudioBuffer :=
  if crossfade = 0 then
    some (seg1 ++ seg2)
  else if seg1.length < crossfade then
    none
  else if seg2.length < crossfade then
    none
  else
    some (seg1.take (seg1.length - crossfade) ++
          List.zipWith mix (seg1.drop (seg1.length - crossfade)) (seg2.take crossfade) ++
          seg2.drop crossfade)

/-- The extract-and-join loop of `process_audio` (src/audio_pause.py
lines 43–51):
    output_audio = AudioSegment.empty()
    for i, (start, end) in enumerate(adjusted_ranges):
        segment = audio[start:end]
        if i == 0: output_audio = segment
        else: output_audio = output_audio.append(segment, crossfade=crossfade_dur)
`none` when some `append` raises. -/
def joinSegments (mix : Sample → Sample → Sample) (audio : AudioBuffer)
    (ranges : List (ℤ × ℤ)) (crossfade : ℕ) : Option AudioBuffer :=
  match ranges with
  | [] => some []
  | r :: rs =>
      rs.foldlM (fun acc r => appendCrossfade mix acc (extract audio r) crossfade)
        (extract audio r)

/-- Peak sample magnitude, `seg.max` in pydub's `normalize`. -/
def peakAmp (buf : AudioBuffer) : ℕ :=
  buf.foldl (fun m s => max m s.natAbs) 0

/-- The final `output_audio.normalize(headroom=1.0)`: pydub computes the
boost that puts
the peak `headroom` dB below full scale and applies it to every sample (a
buffer whose peak is 0 is returned unchanged). `gain h peak s` abstracts the
floating-point per-sample gain application; normalization never changes the
length. -/
def normalize (gain : ℚ → ℕ → Sample → Sample) (h : ℚ) (buf : AudioBuffer) :
    AudioBuffer :=
  if peakAmp buf = 0 then buf else buf.map (gain h (peakAmp buf))

/-- The function `process_audio(audio, nonsilent_ranges, original_duration,
keep_start, keep_end, min_silence_len)` (src/audio_pause.py lines 31–58),
up to the
processed buffer it exports: pad every range, extract and join with 60 ms
crossfades, normalize with 1.0 dB headroom.  `original_duration` and
`min_silence_len` are parameters of the Python function that its audio
computation never reads (they only feed the displayed metrics). -/
def process_audio (mix : Sample → Sample → Sample)
    (gain : ℚ → ℕ → Sample → Sample) (audio : AudioBuffer)
    (nonsilent_ranges : List (ℤ × ℤ)) (original_duration : ℚ)
    (keep_start keep_end : ℤ) (min_silence_len : ℚ) : Option AudioBuffer :=
  let adjusted_ranges := adjustRanges (audio.length : ℤ) keep_start keep_end nonsilent_ranges
  (joinSegments mix audio adjusted_ranges crossfade_dur).map (normalize gain headroom)

/-- One row of the pauses preview table (src/audio_pause.py lines 205–210);
times in seconds. -/
structure Pause where
  pause_num : ℕ
  start : ℚ
  stop : ℚ
  duration : ℚ
  deriving Repr, DecidableEq

/-- One iteration of the pause-derivation loop (src/audio_pause.py
lines 200–211), on the accumulated `(pauses, total_silence)` and the
consecutive pair `(nonsilent_ranges[i], nonsilent_ranges[i+1])`:
    end_current = nonsilent_ranges[i][1] / 1000
    start_next = nonsilent_ranges[i + 1][0] / 1000
    silence_duration = start_next - end_current
    if silence_duration >= min_silence_len:
        pauses.append({... len(pauses) + 1 ...})
        total_silence += silence_duration
The `Pause.stop` field embeds the appended dictionary's "end" key. -/
def deriveStep (min_silence_len : ℚ) (acc : List Pause × ℚ)
    (p : (ℤ × ℤ) × (ℤ × ℤ)) : List Pause × ℚ :=
  let end_current : ℚ := (p.1.2 : ℚ) / 1000
  let start_next : ℚ := (p.2.1 : ℚ) / 1000
  let silence_duration := start_next - end_current
  if min_silence_len ≤ silence_duration then
    (acc.1 ++ [⟨acc.1.length + 1, end_current, start_next, silence_duration⟩],
     acc.2 + silence_duration)
  else acc

/-- The pause-derivation loop of the analysis section (src/audio_pause.py
lines 198–211), `for i in range(len(nonsilent_ranges) - 1)` folded over the
consecutive pairs with `pauses = []` and `total_silence = 0` initially;
returns `(pauses, total_silence)`. -/
def derivePauses (nonsilent_ranges : List (ℤ × ℤ)) (min_silence_len : ℚ) :
    List Pause × ℚ :=
  (List.zip nonsilent_ranges nonsilent_ranges.tail).foldl
    (deriveStep min_silence_len) ([], 0)

/-- The list of consecutive gap durations (seconds), before the
minimum-length filter: `start(i+1)/1000 - end(i)/1000`. -/
def gapList (nonsilent_ranges : List (ℤ × ℤ)) : List ℚ :=
  (List.zip nonsilent_ranges nonsilent_ranges.tail).map
    (fun p => (p.2.1 : ℚ) / 1000 - (p.1.2 : ℚ) / 1000)

/-- The `(end_current, start_next, silence_duration)` values (seconds) the
loop computes for a consecutive pair of intervals. -/
def gapTriple (p : (ℤ × ℤ) × (ℤ × ℤ)) : ℚ × ℚ × ℚ :=
  ((p.1.2 : ℚ) / 1000, (p.2.1 : ℚ) / 1000,
   (p.2.1 : ℚ) / 1000 - (p.1.2 : ℚ) / 1000)

/-- The pause rows the loop appends for the consecutive-pair list `l` when
the accumulated pause list already holds `n` rows (so numbering continues
from `n + 1`); scaffolding for reasoning about the fold in
`derivePauses`. -/
def numberedPauses (min_silence_len : ℚ) :
    ℕ → List ((ℤ × ℤ) × (ℤ × ℤ)) → List Pause
  | _, [] => []
  | n, p :: l =>
      if min_silence_len ≤ (gapTriple p).2.2 then
        ⟨n + 1, (gapTriple p).1, (gapTriple p).2.1, (gapTriple p).2.2⟩ ::
          numberedPauses min_silence_len (n + 1) l
      else numberedPauses min_silence_len n l

/-- The fold in `derivePauses` appends `numberedPauses` rows to the
accumulated list and adds the qualifying gap durations to the accumulated
total. -/
theorem foldl_deriveStep (msl : ℚ) :
    ∀ (l : List ((ℤ × ℤ) × (ℤ × ℤ))) (ps : List Pause) (t : ℚ),
      l.foldl (deriveStep msl) (ps, t) =
        (ps ++ numberedPauses msl ps.length l,
         t + ((l.map fun p => (gapTriple p).2.2).filter fun d => msl ≤ d).sum) := by
  intro l
  induction l with
  | nil => intro ps t; simp [numberedPauses]
  | cons p l ih =>
      intro ps t
      rw [List.foldl_cons]
      by_cases h : msl ≤ (gapTriple p).2.2
      · have hstep : deriveStep msl (ps, t) p =
            (ps ++ [⟨ps.length + 1, (gapTriple p).1, (gapTriple p).2.1,
              (gapTriple p).2.2⟩], t + (gapTriple p).2.2) := by
          simp only [deriveStep, gapTriple] at h ⊢
          rw [if_pos h]
        rw [hstep, ih]
        simp [numberedPauses, if_pos h, List.filter_cons, h, add_assoc]
      · have hstep : deriveStep msl (ps, t) p = (ps, t) := by
          simp only [deriveStep, gapTriple] at h ⊢
          rw [if_neg h]
        rw [hstep, ih]
        simp [numberedPauses, if_neg h, List.filter_cons, h]

/-- The derivation `derivePauses` in closed form. -/
theorem derivePauses_eq (ranges : List (ℤ × ℤ)) (msl : ℚ) :
    derivePauses ranges msl =
      (numberedPauses msl 0 (List.zip ranges ranges.tail),
       (((List.zip ranges ranges.tail).map fun p => (gapTriple p).2.2).filter
         fun d => msl ≤ d).sum) := by
  rw [derivePauses, foldl_deriveStep]
  simp

/-- The recorded `(start, stop, duration)` values of the derived rows are the
gap triples that pass the minimum-length filter, in order. -/
theorem numberedPauses_triples (msl : ℚ) :
    ∀ (l : List ((ℤ × ℤ) × (ℤ × ℤ))) (n : ℕ),
      (numberedPauses msl n l).map (fun p => (p.start, p.stop, p.duration)) =
        (l.map gapTriple).filter (fun tr => msl ≤ tr.2.2) := by
  intro l
  induction l with
  | nil => intro n; simp [numberedPauses]
  | cons p l ih =>
      intro n
      by_cases h : msl ≤ (gapTriple p).2.2
      · simp [numberedPauses, if_pos h, List.filter_cons, h, ih]
      · simp [numberedPauses, if_neg h, List.filter_cons, h, ih]

/-- The `k`-th derived row is numbered `n + k + 1`. -/
theorem numberedPauses_num (msl : ℚ) :
    ∀ (l : List ((ℤ × ℤ) × (ℤ × ℤ))) (n k : ℕ) (p : Pause),
      (numberedPauses msl n l)[k]? = some p → p.pause_num = n + k + 1 := by
  intro l
  induction l with
  | nil => intro n k p hp; simp [numberedPauses] at hp
  | cons q l ih =>
      intro n k p hp
      by_cases hg : msl ≤ (gapTriple q).2.2
      · simp only [numberedPauses, if_pos hg] at hp
        match k with
        | 0 =>
            simp only [List.getElem?_cons_zero, Option.some.injEq] at hp
            simp [← hp]
        | k + 1 =>
            simp only [List.getElem?_cons_succ] at hp
            have := ih (n + 1) k p hp
            omega
      · simp only [numberedPauses, if_neg hg] at hp
        exact ih n k p hp

/-- Every derived row passed the minimum-length filter. -/
theorem numberedPauses_mem (msl : ℚ) :
    ∀ (l : List ((ℤ × ℤ) × (ℤ × ℤ))) (n : ℕ) (p : Pause),
      p ∈ numberedPauses msl n l → msl ≤ p.duration := by
  intro l
  induction l with
  | nil => intro n p hp; simp [numberedPauses] at hp
  | cons q l ih =>
      intro n p hp
      by_cases hg : msl ≤ (gapTriple q).2.2
      · simp only [numberedPauses, if_pos hg, List.mem_cons] at hp
        rcases hp with rfl | hp
        · exact hg
        · exact ih _ _ hp
      · simp only [numberedPauses, if_neg hg] at hp
        exact ih _ _ hp

/-- C4: for each pair of consecutive intervals the loop computes the gap
`start(i+1)/1000 - end(i)/1000`, records it as a pause (with its endpoints,
in order) exactly when the gap is at least `min_silence_len`, numbers the
recorded pauses 1, 2, 3, … in order, and accumulates `total_silence` as the
sum of exactly the recorded gap durations. -/
theorem derivePauses_spec (ranges : List (ℤ × ℤ)) (msl : ℚ) :
    ((derivePauses ranges msl).1.map (fun p => (p.start, p.stop, p.duration)) =
      ((List.zip ranges ranges.tail).map gapTriple).filter
        (fun tr => msl ≤ tr.2.2)) ∧
    (∀ (k : ℕ) (p : Pause), ((derivePauses ranges msl).1)[k]? = some p →
      p.pause_num = k + 1) ∧
    (derivePauses ranges msl).2 =
      ((gapList ranges).filter (fun d => msl ≤ d)).sum := by
  refine ⟨?_, ?_, ?_⟩
  · rw [derivePauses_eq]
    exact numberedPauses_triples msl _ 0
  · intro k p hp
    rw [derivePauses_eq] at hp
    simpa using numberedPauses_num msl _ 0 k p hp
  · rw [derivePauses_eq]
    simp [gapList, gapTriple]

/-- Both components of an entry of `zip l l.tail` are elements of `l`. -/
theorem mem_zip_tail {α : Type} {l : List α} {p : α × α}
    (hp : p ∈ List.zip l l.tail) : p.1 ∈ l ∧ p.2 ∈ l := by
  obtain ⟨h1, h2⟩ := List.of_mem_zip hp
  exact ⟨h1, List.mem_of_mem_tail h2⟩

/-- Entries of `zip l l.tail` are the consecutive pairs of `l`, so a chain
relation on `l` holds of each entry. -/
theorem chain'_zip_tail {α : Type} {R : α → α → Prop} :
    ∀ {l : List α}, List.Chain' R l → ∀ p ∈ List.zip l l.tail, R p.1 p.2
  | [], _, p, hp => by simp at hp
  | [a], _, p, hp => by simp at hp
  | a :: b :: t, h, p, hp => by
      obtain ⟨hab, ht⟩ := List.chain'_cons.mp h
      rcases List.mem_cons.mp hp with rfl | hp
      · exact hab
      · exact chain'_zip_tail ht p hp

/-- A filtered sum of non-negative rationals is at most the full sum. -/
theorem filter_sum_le_sum (p : ℚ → Bool) :
    ∀ (l : List ℚ), (∀ x ∈ l, 0 ≤ x) → (l.filter p).sum ≤ l.sum
  | [], _ => by simp
  | a :: l, h => by
      have ha := h a (List.mem_cons_self a l)
      have hl := filter_sum_le_sum p l (fun x hx => h x (List.mem_cons_of_mem a hx))
      rw [List.filter_cons]
      by_cases hpa : p a
      · simp only [hpa, if_pos]
        simp only [List.sum_cons]
        linarith
      · simp only [hpa]
        simp only [Bool.false_eq_true, if_false, List.sum_cons]
        linarith

/-- Every gap is non-negative when the intervals are ordered end-before-
start. -/
theorem gapList_nonneg (ranges : List (ℤ × ℤ))
    (hord : List.Chain' (fun x y : ℤ × ℤ => x.2 ≤ y.1) ranges) :
    ∀ g ∈ gapList ranges, 0 ≤ g := by
  intro g hg
  obtain ⟨p, hp, rfl⟩ := List.mem_map.mp hg
  have h := chain'_zip_tail hord p hp
  have h' : (p.1.2 : ℚ) ≤ (p.2.1 : ℚ) := by exact_mod_cast h
  have : (p.1.2 : ℚ) / 1000 ≤ (p.2.1 : ℚ) / 1000 := by linarith
  linarith

/-- Telescoping bound: the gaps of an ordered interval list starting at `a`
sum to at most `(L - end a) / 1000` seconds. -/
theorem gapList_sum_le (L : ℤ) :
    ∀ (a : ℤ × ℤ) (t : List (ℤ × ℤ)),
      (∀ r ∈ a :: t, r.1 ≤ r.2 ∧ r.2 ≤ L) →
      List.Chain' (fun x y : ℤ × ℤ => x.2 ≤ y.1) (a :: t) →
      (gapList (a :: t)).sum ≤ ((L : ℚ) - (a.2 : ℚ)) / 1000
  | a, [], hval, _ => by
      have := (hval a (List.mem_cons_self a [])).2
      have h2 : (a.2 : ℚ) ≤ (L : ℚ) := by exact_mod_cast this
      simp [gapList]
      linarith
  | a, b :: t, hval, hord => by
      have ih := gapList_sum_le L b t
        (fun r hr => hval r (List.mem_cons_of_mem a hr)) (List.chain'_cons.mp hord).2
      have hb : (b.1 : ℚ) ≤ (b.2 : ℚ) := by
        exact_mod_cast (hval b (List.mem_cons_of_mem a (List.mem_cons_self b t))).1
      have hgap : gapList (a :: b :: t) =
          ((b.1 : ℚ) / 1000 - (a.2 : ℚ) / 1000) :: gapList (b :: t) := by
        simp [gapList]
      rw [hgap, List.sum_cons]
      linarith

/-- C8: for ordered, non-overlapping intervals inside `[0, len audio]`, the
derivation yields at most `len(intervals) - 1` pauses and the accumulated
total silence is at most the buffer duration in seconds. -/
theorem pause_bounds (audio : AudioBuffer) (ranges : List (ℤ × ℤ)) (msl : ℚ)
    (hval : ∀ r ∈ ranges, 0 ≤ r.1 ∧ r.1 ≤ r.2 ∧ r.2 ≤ (audio.length : ℤ))
    (hord : List.Chain' (fun x y : ℤ × ℤ => x.2 ≤ y.1) ranges) :
    (derivePauses ranges msl).1.length ≤ ranges.length - 1 ∧
    (derivePauses ranges msl).2 ≤ (audio.length : ℚ) / 1000 := by
  constructor
  · have h2 := congrArg List.length
      (numberedPauses_triples msl (List.zip ranges ranges.tail) 0)
    rw [List.length_map] at h2
    have h3 := List.length_filter_le (fun tr : ℚ × ℚ × ℚ => decide (msl ≤ tr.2.2))
      ((List.zip ranges ranges.tail).map gapTriple)
    rw [List.length_map, List.length_zip, List.length_tail] at h3
    rw [derivePauses_eq]
    show (numberedPauses msl 0 (List.zip ranges ranges.tail)).length ≤
      ranges.length - 1
    omega
  · have htot : (derivePauses ranges msl).2 =
        ((gapList ranges).filter (fun d => msl ≤ d)).sum := by
      rw [derivePauses_eq]
      simp [gapList, gapTriple]
    rw [htot]
    have hfil := filter_sum_le_sum (fun d => decide (msl ≤ d)) (gapList ranges)
      (gapList_nonneg ranges hord)
    match ranges, hval, hord with
    | [], _, _ =>
        simp [gapList]
        positivity
    | a :: t, hval, hord =>
        have hsum := gapList_sum_le (audio.length : ℤ) a t
          (fun r hr => ⟨(hval r hr).2.1, (hval r hr).2.2⟩) hord
        have ha2 : (0 : ℚ) ≤ (a.2 : ℚ) := by
          have := (hval a (List.mem_cons_self a t)).1
          have h2 := (hval a (List.mem_cons_self a t)).2.1
          exact_mod_cast this.trans h2
        calc ((gapList (a :: t)).filter (fun d => msl ≤ d)).sum
            ≤ (gapList (a :: t)).sum := hfil
          _ ≤ (((audio.length : ℤ) : ℚ) - (a.2 : ℚ)) / 1000 := hsum
          _ ≤ (audio.length : ℚ) / 1000 := by
              push_cast
              linarith

/-- Witness for C8 at a concrete input. -/
theorem pause_bounds_witness :
    (∀ r ∈ [((0 : ℤ), (3000 : ℤ)), (6000, 10000)],
        0 ≤ r.1 ∧ r.1 ≤ r.2 ∧ r.2 ≤ ((List.replicate 10000 (0 : ℤ)).length : ℤ)) ∧
    List.Chain' (fun x y : ℤ × ℤ => x.2 ≤ y.1)
      [((0 : ℤ), (3000 : ℤ)), (6000, 10000)] ∧
    ((derivePauses [((0 : ℤ), (3000 : ℤ)), (6000, 10000)] 2).1.length ≤
        ([((0 : ℤ), (3000 : ℤ)), (6000, 10000)]).length - 1 ∧
      (derivePauses [((0 : ℤ), (3000 : ℤ)), (6000, 10000)] 2).2 ≤
        ((List.replicate 10000 (0 : ℤ)).length : ℚ) / 1000) :=
  ⟨by intro r hr; fin_cases hr <;> norm_num,
   by norm_num [List.chain'_cons, List.chain'_singleton],
   pause_bounds (List.replicate 10000 (0 : ℤ)) [(0, 3000), (6000, 10000)] 2
     (by intro r hr; fin_cases hr <;> norm_num)
     (by norm_num [List.chain'_cons, List.chain'_singleton])⟩

/-- For strictly non-degenerate, ordered intervals, consecutive interval
ends strictly increase along `zip l l.tail`. -/
theorem chain'_strict_ends :
    ∀ (l : List (ℤ × ℤ)), (∀ r ∈ l, r.1 < r.2) →
      List.Chain' (fun x y : ℤ × ℤ => x.2 ≤ y.1) l →
      List.Chain' (fun p q : (ℤ × ℤ) × (ℤ × ℤ) => p.1.2 < q.1.2)
        (List.zip l l.tail)
  | [], _, _ => by simp
  | [a], _, _ => by simp
  | a :: b :: t, hs, hc => by
      obtain ⟨hab, ht⟩ := List.chain'_cons.mp hc
      have ih := chain'_strict_ends (b :: t)
        (fun r hr => hs r (List.mem_cons_of_mem a hr)) ht
      show List.Chain' _ ((a, b) :: List.zip (b :: t) t)
      refine List.chain'_cons'.mpr ⟨?_, ih⟩
      intro q hq
      match t, hq with
      | [], hq => simp at hq
      | c :: t', hq =>
          have hq' : (b, c) = q := by simpa using hq
          subst hq'
          have hb := hs b (List.mem_cons_of_mem a (List.mem_cons_self b _))
          show a.2 < b.2
          omega

/-- C10: for a strictly increasing, non-overlapping interval list, the
derived pauses are numbered consecutively 1..n, appear in strictly
increasing start-time order, and every listed pause's duration is at least
the configured minimum silence length. -/
theorem pause_list_invariants (ranges : List (ℤ × ℤ)) (msl : ℚ)
    (hstrict : ∀ r ∈ ranges, r.1 < r.2)
    (hord : List.Chain' (fun x y : ℤ × ℤ => x.2 ≤ y.1) ranges) :
    (∀ (k : ℕ) (p : Pause), ((derivePauses ranges msl).1)[k]? = some p →
        p.pause_num = k + 1) ∧
    List.Pairwise (fun p q : Pause => p.start < q.start)
      (derivePauses ranges msl).1 ∧
    ∀ p ∈ (derivePauses ranges msl).1, msl ≤ p.duration := by
  refine ⟨?_, ?_, ?_⟩
  · intro k p hp
    rw [derivePauses_eq] at hp
    simpa using numberedPauses_num msl _ 0 k p hp
  · have hchain := chain'_strict_ends ranges hstrict hord
    have hpairzip : List.Pairwise (fun p q : (ℤ × ℤ) × (ℤ × ℤ) => p.1.2 < q.1.2)
        (List.zip ranges ranges.tail) :=
      (@List.chain'_iff_pairwise _ _ ⟨fun _ _ _ h1 h2 => h1.trans h2⟩ _).mp hchain
    have hmap : List.Pairwise (fun tr tu : ℚ × ℚ × ℚ => tr.1 < tu.1)
        ((List.zip ranges ranges.tail).map gapTriple) := by
      rw [List.pairwise_map]
      refine hpairzip.imp ?_
      intro a b hab
      show (gapTriple a).1 < (gapTriple b).1
      simp only [gapTriple]
      have hcast : ((a.1.2 : ℚ)) < (b.1.2 : ℚ) := by exact_mod_cast hab
      linarith
    have hfil := hmap.filter (fun tr : ℚ × ℚ × ℚ => decide (msl ≤ tr.2.2))
    rw [← numberedPauses_triples msl (List.zip ranges ranges.tail) 0] at hfil
    have hpairs := List.pairwise_map.mp hfil
    rw [derivePauses_eq]
    show List.Pairwise _ (numberedPauses msl 0 (List.zip ranges ranges.tail))
    refine hpairs.imp ?_
    intro a b hab
    exact hab
  · intro p hp
    rw [derivePauses_eq] at hp
    exact numberedPauses_mem msl _ 0 p (by simpa using hp)

/-- Witness for C10 at a concrete input. -/
theorem pause_list_invariants_witness :
    (∀ r ∈ [((0 : ℤ), (3000 : ℤ)), (6000, 10000)], r.1 < r.2) ∧
    List.Chain' (fun x y : ℤ × ℤ => x.2 ≤ y.1)
      [((0 : ℤ), (3000 : ℤ)), (6000, 10000)] ∧
    ((∀ (k : ℕ) (p : Pause),
        ((derivePauses [((0 : ℤ), (3000 : ℤ)), (6000, 10000)] 2).1)[k]? = some p →
        p.pause_num = k + 1) ∧
      List.Pairwise (fun p q : Pause => p.start < q.start)
        (derivePauses [((0 : ℤ), (3000 : ℤ)), (6000, 10000)] 2).1 ∧
      ∀ p ∈ (derivePauses [((0 : ℤ), (3000 : ℤ)), (6000, 10000)] 2).1,
        (2 : ℚ) ≤ p.duration) :=
  ⟨by intro r hr; fin_cases hr <;> norm_num,
   by norm_num [List.chain'_cons, List.chain'_singleton],
   pause_list_invariants [(0, 3000), (6000, 10000)] 2
     (by intro r hr; fin_cases hr <;> norm_num)
     (by norm_num [List.chain'_cons, List.chain'_singleton])⟩

/-- Normalization never changes the buffer length. -/
theorem normalize_length (gain : ℚ → ℕ → Sample → Sample) (h : ℚ)
    (buf : AudioBuffer) : (normalize gain h buf).length = buf.length := by
  rw [normalize]
  split <;> simp

/-- Slicing a range inside the buffer yields its width in samples. -/
theorem extract_length (audio : AudioBuffer) (r : ℤ × ℤ) (h1 : 0 ≤ r.1)
    (h2 : r.1 ≤ r.2) (h3 : r.2 ≤ (audio.length : ℤ)) :
    ((extract audio r).length : ℤ) = r.2 - r.1 := by
  simp only [extract, List.length_take, List.length_drop]
  omega

/-- A 60 ms crossfade append of two sufficiently long segments succeeds and
loses exactly 60 ms. -/
theorem appendCrossfade_length (mix : Sample → Sample → Sample)
    (s1 s2 : AudioBuffer) (h1 : 60 ≤ s1.length) (h2 : 60 ≤ s2.length) :
    ∃ out, appendCrossfade mix s1 s2 60 = some out ∧
      out.length = s1.length + s2.length - 60 := by
  rw [appendCrossfade, if_neg (by norm_num), if_neg (by omega), if_neg (by omega)]
  refine ⟨_, rfl, ?_⟩
  simp only [List.length_append, List.length_take, List.length_drop,
    List.length_zipWith]
  omega

/-- A constant lower bound on every entry bounds the sum from below. -/
theorem mul_length_le_sum (c : ℕ) :
    ∀ (l : List ℕ), (∀ x ∈ l, c ≤ x) → c * l.length ≤ l.sum
  | [], _ => by simp
  | a :: l, h => by
      have ha := h a (List.mem_cons_self a l)
      have hl := mul_length_le_sum c l (fun x hx => h x (List.mem_cons_of_mem a hx))
      simp only [List.length_cons, List.sum_cons]
      calc c * (l.length + 1) = c + c * l.length := by ring
        _ ≤ a + l.sum := by omega

/-- The crossfade fold over segments of length at least 60 succeeds, and its
result length is the accumulated length plus the segment lengths minus 60
per processed segment. -/
theorem join_fold_length (mix : Sample → Sample → Sample) (audio : AudioBuffer) :
    ∀ (rs : List (ℤ × ℤ)) (acc : AudioBuffer),
      (∀ r ∈ rs, 60 ≤ (extract audio r).length) → 60 ≤ acc.length →
      ∃ out,
        rs.foldlM (fun acc r => appendCrossfade mix acc (extract audio r) 60)
          acc = some out ∧
        out.length =
          acc.length + (rs.map fun r => (extract audio r).length).sum -
            60 * rs.length ∧
        60 ≤ out.length := by
  intro rs
  induction rs with
  | nil =>
      intro acc _ hacc
      exact ⟨acc, rfl, by simp, hacc⟩
  | cons r rs ih =>
      intro acc hall hacc
      have hr := hall r (List.mem_cons_self r rs)
      obtain ⟨mid, hmid, hmidlen⟩ :=
        appendCrossfade_length mix acc (extract audio r) hacc hr
      have hmid60 : 60 ≤ mid.length := by omega
      obtain ⟨out, hout, houtlen, hout60⟩ :=
        ih mid (fun x hx => hall x (List.mem_cons_of_mem r hx)) hmid60
      refine ⟨out, ?_, ?_, hout60⟩
      · rw [List.foldlM_cons, hmid]
        simpa using hout
      · have hsum := mul_length_le_sum 60 (rs.map fun r => (extract audio r).length)
          (by intro x hx
              obtain ⟨y, hy, rfl⟩ := List.mem_map.mp hx
              exact hall y (List.mem_cons_of_mem r hy))
        rw [List.length_map] at hsum
        simp only [List.map_cons, List.sum_cons, List.length_cons]
        omega

/-- C6: on a non-empty list of padded intervals inside the buffer, each at
least 60 ms wide, the reassembled output exists and its duration is the sum
of the padded-interval lengths minus 60 ms per join, i.e. minus
`60 * (n - 1)`; the final normalization leaves that duration unchanged. -/
theorem output_length_eq (mix : Sample → Sample → Sample)
    (gain : ℚ → ℕ → Sample → Sample) (audio : AudioBuffer)
    (ranges : List (ℤ × ℤ)) (hne : ranges ≠ [])
    (hval : ∀ r ∈ ranges,
      0 ≤ r.1 ∧ r.1 ≤ r.2 ∧ r.2 ≤ (audio.length : ℤ) ∧ 60 ≤ r.2 - r.1) :
    ∃ out, joinSegments mix audio ranges crossfade_dur = some out ∧
      (out.length : ℤ) =
        (ranges.map fun r => r.2 - r.1).sum - 60 * ((ranges.length : ℤ) - 1) ∧
      (normalize gain headroom out).length = out.length := by
  match ranges, hne with
  | r :: rs, _ =>
      have hext : ∀ x ∈ r :: rs, ((extract audio x).length : ℤ) = x.2 - x.1 :=
        fun x hx => extract_length audio x (hval x hx).1 (hval x hx).2.1
          (hval x hx).2.2.1
      have h60 : ∀ x ∈ rs, 60 ≤ (extract audio x).length := by
        intro x hx
        have h1 := hext x (List.mem_cons_of_mem r hx)
        have h2 := (hval x (List.mem_cons_of_mem r hx)).2.2.2
        omega
      have hr60 : 60 ≤ (extract audio r).length := by
        have h1 := hext r (List.mem_cons_self r rs)
        have h2 := (hval r (List.mem_cons_self r rs)).2.2.2
        omega
      obtain ⟨out, hout, hlen, _⟩ :=
        join_fold_length mix audio rs (extract audio r) h60 hr60
      refine ⟨out, hout, ?_, normalize_length gain headroom out⟩
      have hcast : ((rs.map fun x => (extract audio x).length).sum : ℤ) =
          (rs.map fun x => x.2 - x.1).sum := by
        rw [Nat.cast_list_sum, List.map_map]
        exact congrArg List.sum (List.map_congr_left
          (fun x hx => hext x (List.mem_cons_of_mem r hx)))
      have hsum := mul_length_le_sum 60 (rs.map fun x => (extract audio x).length)
        (by intro x hx
            obtain ⟨y, hy, rfl⟩ := List.mem_map.mp hx
            exact h60 y hy)
      rw [List.length_map] at hsum
      have hhead := hext r (List.mem_cons_self r rs)
      simp only [List.map_cons, List.sum_cons, List.length_cons]
      omega

/-- Witness for C6: the spec's concrete scenario — padded intervals
`(0, 3150)` and `(5900, 10000)` on a 10000 ms buffer give an output of
`3150 + 4100 - 60 = 7190` ms. -/
theorem output_length_witness :
    (([((0 : ℤ), (3150 : ℤ)), (5900, 10000)].map fun r => r.2 - r.1).sum -
        60 * ((([((0 : ℤ), (3150 : ℤ)), (5900, 10000)]).length : ℤ) - 1) = 7190) ∧
    ([((0 : ℤ), (3150 : ℤ)), (5900, 10000)] ≠ []) ∧
    (∀ r ∈ [((0 : ℤ), (3150 : ℤ)), (5900, 10000)],
      0 ≤ r.1 ∧ r.1 ≤ r.2 ∧ r.2 ≤ ((List.replicate 10000 (0 : ℤ)).length : ℤ) ∧
        60 ≤ r.2 - r.1) ∧
    (∃ out, joinSegments (fun a b => a + b) (List.replicate 10000 (0 : ℤ))
        [((0 : ℤ), (3150 : ℤ)), (5900, 10000)] crossfade_dur = some out ∧
      (out.length : ℤ) =
        ([((0 : ℤ), (3150 : ℤ)), (5900, 10000)].map fun r => r.2 - r.1).sum -
          60 * ((([((0 : ℤ), (3150 : ℤ)), (5900, 10000)]).length : ℤ) - 1) ∧
      (normalize (fun _ _ s => s) headroom out).length = out.length) :=
  ⟨by norm_num, by simp,
   by intro r hr; fin_cases hr <;> norm_num,
   output_length_eq (fun a b => a + b) (fun _ _ s => s)
     (List.replicate 10000 (0 : ℤ)) [(0, 3150), (5900, 10000)] (by simp)
     (by intro r hr; fin_cases hr <;> norm_num)⟩

/-- Inside the sliced range, `audio[start:end]` holds the buffer's sample at
the corresponding absolute position. -/
theorem extract_getElem? (audio : AudioBuffer) (a b t : ℤ) (ha : 0 ≤ a)
    (hat : a ≤ t) (htb : t < b) :
    (extract audio (a, b))[(t - a).toNat]? = audio[t.toNat]? := by
  rw [extract]
  rw [List.getElem?_take_of_lt (by omega : (t - a).toNat < ((a, b).2 - (a, b).1).toNat)]
  rw [List.getElem?_drop]
  congr 1
  omega

/-- Outside the 60 ms blend window, a crossfade append copies both operands'
samples verbatim into the output: positions before `len s1 - 60` come from
`s1` and positions from `len s1` on come from `s2` (shifted by 60 ms). -/
theorem appendCrossfade_getElem? (mix : Sample → Sample → Sample)
    (s1 s2 : AudioBuffer) (h1 : 60 ≤ s1.length) (h2 : 60 ≤ s2.length) :
    ∃ out, appendCrossfade mix s1 s2 60 = some out ∧
      (∀ j : ℕ, j < s1.length - 60 → out[j]? = s1[j]?) ∧
      (∀ j : ℕ, 60 ≤ j → j < s2.length → out[s1.length + j - 60]? = s2[j]?) := by
  have hA : (List.take (s1.length - 60) s1).length = s1.length - 60 := by
    simp
  have hB : (List.zipWith mix (s1.drop (s1.length - 60)) (s2.take 60)).length = 60 := by
    simp only [List.length_zipWith, List.length_drop, List.length_take]
    omega
  rw [appendCrossfade, if_neg (by norm_num), if_neg (by omega), if_neg (by omega)]
  refine ⟨_, rfl, ?_, ?_⟩
  · intro j hj
    rw [List.getElem?_append_left (by rw [List.length_append, hA, hB]; omega)]
    rw [List.getElem?_append_left (by rw [hA]; omega)]
    exact List.getElem?_take_of_lt (by omega)
  · intro j hj60 hjlen
    rw [List.getElem?_append_right
      (by rw [List.length_append, hA, hB]; omega)]
    rw [List.length_append, hA, hB]
    rw [List.getElem?_drop]
    congr 1
    omega

/-- The join of exactly two padded ranges is one crossfade append. -/
theorem joinSegments_pair (mix : Sample → Sample → Sample) (audio : AudioBuffer)
    (p1 p2 : ℤ × ℤ) :
    joinSegments mix audio [p1, p2] crossfade_dur =
      appendCrossfade mix (extract audio p1) (extract audio p2) 60 := by
  simp [joinSegments, crossfade_dur]

/-- C7: two consecutive intervals separated by a gap shorter than
`keep_start + keep_end` get overlapping padded intervals, the padding step
does not merge them, each padded interval's extracted audio contains every
sample of the overlap region, and (away from the 60 ms blend margins) the
joined output contains each overlap sample twice, at two distinct
positions. -/
theorem overlap_duplicated (mix : Sample → Sample → Sample)
    (audio : AudioBuffer) (s1 e1 s2 e2 keep_start keep_end : ℤ)
    (hks : 0 ≤ keep_start) (hke : 0 ≤ keep_end) (h0 : 0 ≤ s1 - keep_start)
    (h12 : s1 ≤ e1) (hord : e1 ≤ s2) (h34 : s2 ≤ e2)
    (hL : e2 + keep_end ≤ (audio.length : ℤ))
    (hgap : s2 - e1 < keep_start + keep_end) :
    (adjustRanges (audio.length : ℤ) keep_start keep_end [(s1, e1), (s2, e2)] =
      [(s1 - keep_start, e1 + keep_end), (s2 - keep_start, e2 + keep_end)]) ∧
    (s2 - keep_start < e1 + keep_end) ∧
    (∀ t : ℤ, s2 - keep_start ≤ t → t < e1 + keep_end →
      (extract audio
          (s1 - keep_start, e1 + keep_end))[(t - (s1 - keep_start)).toNat]? =
        audio[t.toNat]? ∧
      (extract audio
          (s2 - keep_start, e2 + keep_end))[(t - (s2 - keep_start)).toNat]? =
        audio[t.toNat]?) ∧
    (∀ t : ℤ, s2 - keep_start + 60 ≤ t → t < e1 + keep_end - 60 →
      ∃ out, joinSegments mix audio
          (adjustRanges (audio.length : ℤ) keep_start keep_end
            [(s1, e1), (s2, e2)]) crossfade_dur = some out ∧
        out[(t - (s1 - keep_start)).toNat]? = audio[t.toNat]? ∧
        out[(e1 + keep_end - (s1 - keep_start) + (t - (s2 - keep_start)) -
            60).toNat]? = audio[t.toNat]? ∧
        (t - (s1 - keep_start)).toNat ≠
          (e1 + keep_end - (s1 - keep_start) + (t - (s2 - keep_start)) -
            60).toNat) := by
  have hadj : adjustRanges (audio.length : ℤ) keep_start keep_end
      [(s1, e1), (s2, e2)] =
      [(s1 - keep_start, e1 + keep_end), (s2 - keep_start, e2 + keep_end)] := by
    simp only [adjustRanges, List.map_cons, List.map_nil, List.cons.injEq,
      Prod.mk.injEq, and_true]
    refine ⟨⟨?_, ?_⟩, ?_, ?_⟩ <;> omega
  have hl1 : ((extract audio (s1 - keep_start, e1 + keep_end)).length : ℤ) =
      e1 + keep_end - (s1 - keep_start) :=
    extract_length audio _ (by omega) (by omega) (by omega)
  have hl2 : ((extract audio (s2 - keep_start, e2 + keep_end)).length : ℤ) =
      e2 + keep_end - (s2 - keep_start) :=
    extract_length audio _ (by omega) (by omega) (by omega)
  refine ⟨hadj, by omega, ?_, ?_⟩
  · intro t ht1 ht2
    constructor
    · exact extract_getElem? audio _ _ t (by omega) (by omega) (by omega)
    · exact extract_getElem? audio _ _ t (by omega) (by omega) (by omega)
  · intro t ht1 ht2
    obtain ⟨out, hout, hleft, hright⟩ := appendCrossfade_getElem? mix
      (extract audio (s1 - keep_start, e1 + keep_end))
      (extract audio (s2 - keep_start, e2 + keep_end))
      (by omega) (by omega)
    refine ⟨out, ?_, ?_, ?_, by omega⟩
    · rw [hadj, joinSegments_pair, hout]
    · rw [hleft (t - (s1 - keep_start)).toNat (by omega)]
      exact extract_getElem? audio _ _ t (by omega) (by omega) (by omega)
    · have hidx : (e1 + keep_end - (s1 - keep_start) + (t - (s2 - keep_start)) -
          60).toNat =
          (extract audio (s1 - keep_start, e1 + keep_end)).length +
            (t - (s2 - keep_start)).toNat - 60 := by omega
      rw [hidx, hright (t - (s2 - keep_start)).toNat (by omega) (by omega)]
      exact extract_getElem? audio _ _ t (by omega) (by omega) (by omega)

/-- Witness for C7 at a concrete input: intervals `(200, 1200)` and
`(1300, 2200)` with a 100 ms gap, `keep_start = 100`, `keep_end = 150`, on a
3000 ms buffer. -/
theorem overlap_duplicated_witness :
    ((0 : ℤ) ≤ 100) ∧ ((0 : ℤ) ≤ 150) ∧ ((0 : ℤ) ≤ 200 - 100) ∧
    ((200 : ℤ) ≤ 1200) ∧ ((1200 : ℤ) ≤ 1300) ∧ ((1300 : ℤ) ≤ 2200) ∧
    ((2200 : ℤ) + 150 ≤ ((List.replicate 3000 (0 : ℤ)).length : ℤ)) ∧
    ((1300 : ℤ) - 1200 < 100 + 150) ∧
    ((adjustRanges ((List.replicate 3000 (0 : ℤ)).length : ℤ) 100 150
        [((200 : ℤ), (1200 : ℤ)), (1300, 2200)] =
      [(200 - 100, 1200 + 150), (1300 - 100, 2200 + 150)]) ∧
    ((1300 : ℤ) - 100 < 1200 + 150) ∧
    (∀ t : ℤ, 1300 - 100 ≤ t → t < 1200 + 150 →
      (extract (List.replicate 3000 (0 : ℤ))
          (200 - 100, 1200 + 150))[(t - (200 - 100)).toNat]? =
        (List.replicate 3000 (0 : ℤ))[t.toNat]? ∧
      (extract (List.replicate 3000 (0 : ℤ))
          (1300 - 100, 2200 + 150))[(t - (1300 - 100)).toNat]? =
        (List.replicate 3000 (0 : ℤ))[t.toNat]?) ∧
    (∀ t : ℤ, 1300 - 100 + 60 ≤ t → t < 1200 + 150 - 60 →
      ∃ out, joinSegments (fun a b => a + b) (List.replicate 3000 (0 : ℤ))
          (adjustRanges ((List.replicate 3000 (0 : ℤ)).length : ℤ) 100 150
            [((200 : ℤ), (1200 : ℤ)), (1300, 2200)]) crossfade_dur = some out ∧
        out[(t - (200 - 100)).toNat]? = (List.replicate 3000 (0 : ℤ))[t.toNat]? ∧
        out[((1200 : ℤ) + 150 - (200 - 100) + (t - (1300 - 100)) -
            60).toNat]? = (List.replicate 3000 (0 : ℤ))[t.toNat]? ∧
        (t - ((200 : ℤ) - 100)).toNat ≠
          ((1200 : ℤ) + 150 - (200 - 100) + (t - (1300 - 100)) - 60).toNat)) :=
  ⟨by norm_num, by norm_num, by norm_num, by norm_num, by norm_num, by norm_num,
   by norm_num, by norm_num,
   overlap_duplicated (fun a b => a + b) (List.replicate 3000 (0 : ℤ))
     200 1200 1300 2200 100 150 (by norm_num) (by norm_num) (by norm_num)
     (by norm_num) (by norm_num) (by norm_num) (by norm_num) (by norm_num)⟩

/-- C1: the padding step of `process_audio` maps the `i`-th input interval
`(start, end)` to exactly `(max 0 (start - keep_start),
min (len audio) (end + keep_end))`: a start pushed below 0 by the pre-roll is
clamped to 0 and an end pushed past the buffer length by the post-roll is
clamped to the buffer length. -/
theorem adjustRanges_eq_pad (audio : AudioBuffer) (keep_start keep_end : ℤ)
    (nonsilent_ranges : List (ℤ × ℤ)) (i : ℕ) :
    (adjustRanges (audio.length : ℤ) keep_start keep_end nonsilent_ranges)[i]? =
      nonsilent_ranges[i]?.map
        (fun r => (max 0 (r.1 - keep_start), min (audio.length : ℤ) (r.2 + keep_end))) := by
  simp [adjustRanges]

/-- C5: `process_audio`'s output is the same for any two values of the
minimum-silence-length parameter: the reassembly (pad, extract, crossfade
join, normalize) never reads `min_silence_len`, so the preview's
minimum-length pause filter cannot influence what is removed. -/
theorem process_audio_independent_of_min_silence_len
    (mix : Sample → Sample → Sample) (gain : ℚ → ℕ → Sample → Sample)
    (audio : AudioBuffer) (nonsilent_ranges : List (ℤ × ℤ))
    (original_duration : ℚ) (keep_start keep_end : ℤ) (msl₁ msl₂ : ℚ) :
    process_audio mix gain audio nonsilent_ranges original_duration
        keep_start keep_end msl₁ =
      process_audio mix gain audio nonsilent_ranges original_duration
        keep_start keep_end msl₂ := rfl

/-- C2: the join step's constants and structure — the crossfade constant is
60 ms and the normalization headroom is 1.0 dB; a single padded interval is
copied verbatim as the output of the join; appending a further padded
interval to a non-empty join extends the running output with a crossfade of
exactly `crossfade_dur = 60`; and `process_audio` is the 60 ms-crossfade
join of the padded intervals followed by normalization at headroom 1. -/
theorem join_structure_and_constants :
    crossfade_dur = 60 ∧ headroom = 1 ∧
    (∀ (mix : Sample → Sample → Sample) (audio : AudioBuffer) (r : ℤ × ℤ),
        joinSegments mix audio [r] crossfade_dur = some (extract audio r)) ∧
    (∀ (mix : Sample → Sample → Sample) (audio : AudioBuffer)
        (rs : List (ℤ × ℤ)) (r : ℤ × ℤ), rs ≠ [] →
        joinSegments mix audio (rs ++ [r]) crossfade_dur =
          (joinSegments mix audio rs crossfade_dur).bind
            (fun out => appendCrossfade mix out (extract audio r) 60)) ∧
    (∀ (mix : Sample → Sample → Sample) (gain : ℚ → ℕ → Sample → Sample)
        (audio : AudioBuffer) (nonsilent_ranges : List (ℤ × ℤ))
        (original_duration : ℚ) (keep_start keep_end : ℤ) (msl : ℚ),
        process_audio mix gain audio nonsilent_ranges original_duration
            keep_start keep_end msl =
          (joinSegments mix audio
              (adjustRanges (audio.length : ℤ) keep_start keep_end nonsilent_ranges)
              60).map (normalize gain 1)) := by
  refine ⟨rfl, rfl, ?_, ?_, ?_⟩
  · intro mix audio r
    simp [joinSegments]
  · intro mix audio rs r hne
    match rs with
    | [] => exact absurd rfl hne
    | r₀ :: rest =>
        show (rest ++ [r]).foldlM _ _ = _
        rw [List.foldlM_append]
        simp [joinSegments, crossfade_dur]
  · intro mix gain audio nonsilent_ranges original_duration keep_start keep_end msl
    rfl

/-- Witness for C2 at a concrete input. -/
theorem join_structure_witness :
    ([((0 : ℤ), (100 : ℤ))] ≠ []) ∧
    (joinSegments (fun a b => a + b) (List.replicate 400 (0 : ℤ))
        ([(0, 100)] ++ [(200, 300)]) crossfade_dur =
      (joinSegments (fun a b => a + b) (List.replicate 400 (0 : ℤ))
          [(0, 100)] crossfade_dur).bind
        (fun out => appendCrossfade (fun a b => a + b) out
          (extract (List.replicate 400 (0 : ℤ)) (200, 300)) 60)) :=
  ⟨by simp, join_structure_and_constants.2.2.2.1 (fun a b => a + b)
    (List.replicate 400 (0 : ℤ)) [(0, 100)] (200, 300) (by simp)⟩

/-- C9: on well-formed input intervals (each inside `[0, len audio]`) and
non-negative paddings, every adjusted interval stays inside
`[0, len audio]`, contains its original interval, and the adjusted list has
the same length with the `i`-th adjusted interval produced from the `i`-th
input interval. -/
theorem adjusted_invariants (audio : AudioBuffer) (keep_start keep_end : ℤ)
    (ranges : List (ℤ × ℤ)) (hks : 0 ≤ keep_start) (hke : 0 ≤ keep_end)
    (hval : ∀ r ∈ ranges, 0 ≤ r.1 ∧ r.1 ≤ r.2 ∧ r.2 ≤ (audio.length : ℤ)) :
    (adjustRanges (audio.length : ℤ) keep_start keep_end ranges).length =
        ranges.length ∧
    ∀ (i : ℕ) (a r : ℤ × ℤ),
      (adjustRanges (audio.length : ℤ) keep_start keep_end ranges)[i]? = some a →
      ranges[i]? = some r →
      0 ≤ a.1 ∧ a.1 ≤ r.1 ∧ r.2 ≤ a.2 ∧ a.2 ≤ (audio.length : ℤ) ∧ a.1 ≤ a.2 := by
  constructor
  · simp [adjustRanges]
  · intro i a r ha hr
    obtain ⟨h1, h2, h3⟩ := hval r (List.getElem?_mem hr)
    simp only [adjustRanges, List.getElem?_map, hr, Option.map_some] at ha
    cases ha
    refine ⟨le_max_left _ _, ?_, ?_, min_le_left _ _, ?_⟩ <;>
      simp only [max_le_iff, le_min_iff, sup_le_iff, le_inf_iff] <;> omega

/-- Witness for C9 at a concrete input. -/
theorem adjusted_invariants_witness :
    ((0 : ℤ) ≤ 1) ∧
    (∀ r ∈ [((0 : ℤ), (3 : ℤ)), (6, 10)],
        0 ≤ r.1 ∧ r.1 ≤ r.2 ∧ r.2 ≤ ((List.replicate 10 (0 : ℤ)).length : ℤ)) ∧
    ((adjustRanges ((List.replicate 10 (0 : ℤ)).length : ℤ) 1 1
          [(0, 3), (6, 10)]).length = ([((0 : ℤ), (3 : ℤ)), (6, 10)]).length ∧
      ∀ (i : ℕ) (a r : ℤ × ℤ),
        (adjustRanges ((List.replicate 10 (0 : ℤ)).length : ℤ) 1 1
            [(0, 3), (6, 10)])[i]? = some a →
        ([((0 : ℤ), (3 : ℤ)), (6, 10)])[i]? = some r →
        0 ≤ a.1 ∧ a.1 ≤ r.1 ∧ r.2 ≤ a.2 ∧
          a.2 ≤ ((List.replicate 10 (0 : ℤ)).length : ℤ) ∧ a.1 ≤ a.2) :=
  ⟨by norm_num, by decide,
    adjusted_invariants (List.replicate 10 (0 : ℤ)) 1 1 [(0, 3), (6, 10)]
      (by norm_num) (by norm_num) (by decide)⟩

/-- C3 fails on the code: `process_audio` passes the fixed 60 ms crossfade to
`AudioSegment.append` with no clamping, and pydub's `append` raises
`ValueError` whenever the crossfade is longer than either operand.  On a
1000 ms buffer with non-silent ranges `[(0, 100), (200, 220)]` and zero
padding, the second segment is 20 ms long, so the join raises instead of
clamping the crossfade: the whole processing run fails (`none`), for every
blend and gain function. -/
theorem short_segment_append_raises (mix : Sample → Sample → Sample)
    (gain : ℚ → ℕ → Sample → Sample) :
    process_audio mix gain (List.replicate 1000 (0 : ℤ)) [(0, 100), (200, 220)]
      1 0 0 2 = none := by
  have h1 : (extract (List.replicate 1000 (0 : ℤ)) (0, 100)).length = 100 := by
    simp [extract]
  have h2 : (extract (List.replicate 1000 (0 : ℤ)) (200, 220)).length = 20 := by
    simp [extract]
  have hadj : adjustRanges ((List.replicate 1000 (0 : ℤ)).length : ℤ) 0 0
      [(0, 100), (200, 220)] = [(0, 100), (200, 220)] := by
    simp [adjustRanges]
  have happ : appendCrossfade mix (extract (List.replicate 1000 (0 : ℤ)) (0, 100))
      (extract (List.replicate 1000 (0 : ℤ)) (200, 220)) 60 = none := by
    rw [appendCrossfade, if_neg (by norm_num), if_neg (by rw [h1]; norm_num),
      if_pos (by rw [h2]; norm_num)]
  simp only [process_audio, hadj, joinSegments, List.foldlM_cons, List.foldlM_nil,
    crossfade_dur, happ]
  rfl

end AudioPause
